import Mathlib

set_option maxRecDepth 8000

/-!
A shallow embedding of the game core of src/tic_tac_toe.py: the 3x3 board,
the win-line check `check_winning_condition`, the depth-limited search
`minimax`, the root selection `find_best_move`, and the move-validation
guard of `player_turn`.  The Python code mutates one shared board in place
and restores every speculative write; the embedding threads the board
explicitly, so each search function returns its value together with the
net board state after the call.  The unbounded Python recursion is driven
here by a fuel parameter that strictly exceeds the number of empty cells
(at most 9), which is proved sufficient below (`minimaxVal_fuel_irrel`).
-/

/-- A cell of the 3x3 grid.  The source encodes cells by the string
constants EMPTY = " ", PLAYER_X = "X", PLAYER_O = "O" (lines 20-22). -/
inductive Cell where
  | Empty : Cell
  | X : Cell
  | O : Cell
deriving DecidableEq

/-- The 3x3 board, `board[r][c]` in the source. -/
abbrev Board := Fin 3 → Fin 3 → Cell

/-- A (row, column) pair as produced by the nested `range(3)` loops. -/
abbrev Move := Fin 3 × Fin 3

/-- The in-place assignment `board[r][c] = v` of the source. -/
def setCell (b : Board) (r c : Fin 3) (v : Cell) : Board :=
  fun i j => if i = r ∧ j = c then v else b i j

/-- The eight fixed win lines, as listed in `main` (lines 538-547):
three rows, three columns, two diagonals. -/
def winning_combinations : List (Move × Move × Move) :=
  [((0, 0), (0, 1), (0, 2)),
   ((1, 0), (1, 1), (1, 2)),
   ((2, 0), (2, 1), (2, 2)),
   ((0, 0), (1, 0), (2, 0)),
   ((0, 1), (1, 1), (2, 1)),
   ((0, 2), (1, 2), (2, 2)),
   ((0, 0), (1, 1), (2, 2)),
   ((0, 2), (1, 1), (2, 0))]

/-- `check_winning_condition(player)` (lines 464-481): true iff some win
line has all three cells equal to `player` (the chained Python equality
`board[b1] == board[b2] == board[b3] == player`). -/
def check_winning_condition (b : Board) (player : Cell) : Bool :=
  winning_combinations.any fun l =>
    b l.1.1 l.1.2 == player && b l.2.1.1 l.2.1.2 == player && b l.2.2.1 l.2.2.2 == player

/-- The cells in the order visited by `for r in range(3): for c in range(3)`,
i.e. row-major order. -/
def allCells : List Move :=
  [(0, 0), (0, 1), (0, 2), (1, 0), (1, 1), (1, 2), (2, 0), (2, 1), (2, 2)]

/-- The scan `any(EMPTY in row for row in board)` (lines 239 and 334):
true iff some cell is Empty. -/
def hasEmpty (b : Board) : Bool :=
  allCells.any fun rc => b rc.1 rc.2 == Cell.Empty

/-- The number of Empty cells of a board (the termination measure of the
search: every speculative placement strictly decreases it). -/
def emptyCount (b : Board) : Nat :=
  (Finset.univ.filter fun rc : Move => b rc.1 rc.2 = Cell.Empty).card

/-- Python's `best_score` ranges over ints together with `-math.inf` and
`math.inf` (lines 341, 351, 375); this type reproduces that value space. -/
inductive Score where
  | negInf : Score
  | fin : Int → Score
  | posInf : Score
deriving DecidableEq

/-- The comparison underlying Python's `<`, `>`, `max`, `min` on scores. -/
def Score.lt : Score → Score → Bool
  | Score.negInf, Score.negInf => false
  | Score.negInf, Score.fin _ => true
  | Score.negInf, Score.posInf => true
  | Score.fin _, Score.negInf => false
  | Score.fin a, Score.fin b => a < b
  | Score.fin _, Score.posInf => true
  | Score.posInf, _ => false

/-- Non-strict comparison, `a <= b` on the extended score line. -/
def Score.le (a b : Score) : Bool := !(Score.lt b a)

/-- Python's `max(a, b)`: the first argument when the two are equal. -/
def Score.max (a b : Score) : Score := if Score.lt a b then b else a

/-- Python's `min(a, b)`: the first argument when the two are equal. -/
def Score.min (a b : Score) : Score := if Score.lt b a then b else a

/-- `minimax(board, depth, is_maximizing, difficulty)` (lines 313-359),
with the board threaded explicitly: the result pairs the returned score
with the net state of the mutated-and-restored board.  `fuel` bounds the
recursion depth; any fuel exceeding the number of empty cells (at most 9)
yields the same result (`minimaxVal_fuel_irrel`), so the wrapper `minimax`
below runs it with fuel 10.  Out of fuel it answers `(0, b)`, a case that
is never reached from the wrapper. -/
def minimaxGo : Nat → Board → Nat → Bool → Nat → Score × Board
  | 0, b, _, _, _ => (Score.fin 0, b)
  | fuel + 1, b, depth, is_maximizing, difficulty =>
    if check_winning_condition b Cell.X then (Score.fin (-1), b)
    else if check_winning_condition b Cell.O then (Score.fin 1, b)
    else if !(hasEmpty b) then (Score.fin 0, b)
    else if difficulty ≤ depth then (Score.fin 0, b)
    else if is_maximizing then
      allCells.foldl
        (fun acc rc =>
          if acc.2 rc.1 rc.2 == Cell.Empty then
            let res := minimaxGo fuel (setCell acc.2 rc.1 rc.2 Cell.O) (depth + 1) false difficulty
            (Score.max res.1 acc.1, setCell res.2 rc.1 rc.2 Cell.Empty)
          else acc)
        (Score.negInf, b)
    else
      allCells.foldl
        (fun acc rc =>
          if acc.2 rc.1 rc.2 == Cell.Empty then
            let res := minimaxGo fuel (setCell acc.2 rc.1 rc.2 Cell.X) (depth + 1) true difficulty
            (Score.min res.1 acc.1, setCell res.2 rc.1 rc.2 Cell.Empty)
          else acc)
        (Score.posInf, b)

/-- The source `minimax` (lines 313-359): score together with the net
board state after the call. -/
def minimax (b : Board) (depth : Nat) (is_maximizing : Bool) (difficulty : Nat) : Score × Board :=
  minimaxGo 10 b depth is_maximizing difficulty

/-- `find_best_move(difficulty)` (lines 362-386).  The source reads and
mutates the module-global board; here the board is an explicit argument
and the result pairs the returned move with the net board state. -/
def find_best_move (b : Board) (difficulty : Nat) : Option Move × Board :=
  let r := allCells.foldl
    (fun acc rc =>
      if acc.2 rc.1 rc.2 == Cell.Empty then
        let res := minimaxGo 10 (setCell acc.2 rc.1 rc.2 Cell.O) 0 false difficulty
        let b2 := setCell res.2 rc.1 rc.2 Cell.Empty
        if Score.lt acc.1.1 res.1 then ((res.1, some rc), b2) else (acc.1, b2)
      else acc)
    ((Score.negInf, (none : Option Move)), b)
  (r.1.2, r.2)

/-- The board-logic part of `check_winner` (lines 219-244): the game is
over on an X line, an O line, or a full board. -/
def check_winner (b : Board) : Bool :=
  check_winning_condition b Cell.X || check_winning_condition b Cell.O || !(hasEmpty b)

/-- The board effect of `bot_turn` (lines 197-217): query the engine and,
when it yields a move, write PLAYER_O there (a nonempty tuple is truthy,
so `if move:` is a some-check). -/
def bot_turn (b : Board) (difficulty : Nat) : Board :=
  let r := find_best_move b difficulty
  match r.1 with
  | some m => setCell r.2 m.1 m.2 Cell.O
  | none => r.2

/-- The board effect of `player_turn(row, column)` (lines 170-195): the
click is accepted only when the cell is Empty and the game is not over;
then PLAYER_X is written and, if the game is still not over, the bot
answers.  On an occupied cell nothing is written. -/
def player_turn (b : Board) (r c : Fin 3) (difficulty : Nat) : Board :=
  if b r c = Cell.Empty ∧ check_winner b = false then
    let b1 := setCell b r c Cell.X
    if check_winner b1 = false then bot_turn b1 difficulty else b1
  else b

/-- The error of the spec's Board contract. -/
inductive InvalidMoveError where
  | invalidMove : InvalidMoveError
deriving DecidableEq

/-- Modelled from the spec: the repository exposes no standalone `place`
operation; its occupancy guard lives inline in `player_turn` (lines
185-195).  Following the spec's words, `place` fails with
`InvalidMoveError` when the coordinates are out of range or the target
cell is occupied, and otherwise writes the mark in place. -/
def place (b : Board) (r c : Nat) (p : Cell) : Except InvalidMoveError Board :=
  if h : r < 3 ∧ c < 3 then
    if b ⟨r, h.1⟩ ⟨c, h.2⟩ = Cell.Empty then
      Except.ok (setCell b ⟨r, h.1⟩ ⟨c, h.2⟩ p)
    else Except.error InvalidMoveError.invalidMove
  else Except.error InvalidMoveError.invalidMove

/-- Board positions reachable from the empty board by the game loop of the
source: the human places PLAYER_X first, moves alternate, each move goes
to an Empty cell, and no move is made once `check_winner` holds (the flag
is true when PLAYER_X is to move). -/
inductive Reachable : Board → Bool → Prop where
  | init : Reachable (fun _ _ => Cell.Empty) true
  | moveX (b : Board) (r c : Fin 3) :
      Reachable b true → b r c = Cell.Empty → check_winner b = false →
      Reachable (setCell b r c Cell.X) false
  | moveO (b : Board) (r c : Fin 3) :
      Reachable b false → b r c = Cell.Empty → check_winner b = false →
      Reachable (setCell b r c Cell.O) true

/-- The all-Empty starting board. -/
def emptyBoard : Board := fun _ _ => Cell.Empty

/-- A concrete 3x3 board from its nine cells in row-major order. -/
def boardOf (c00 c01 c02 c10 c11 c12 c20 c21 c22 : Cell) : Board := fun r c =>
  if r.val = 0 then (if c.val = 0 then c00 else if c.val = 1 then c01 else c02)
  else if r.val = 1 then (if c.val = 0 then c10 else if c.val = 1 then c11 else c12)
  else (if c.val = 0 then c20 else if c.val = 1 then c21 else c22)

/-- A board where X has completed the top row while empty cells remain. -/
def xTopRowBoard : Board :=
  boardOf Cell.X Cell.X Cell.X
          Cell.Empty Cell.Empty Cell.Empty
          Cell.Empty Cell.Empty Cell.Empty

/-- A (not legally reachable) board where both X and O have completed
lines: X owns the top row, O the middle row. -/
def doubleWinBoard : Board :=
  boardOf Cell.X Cell.X Cell.X
          Cell.O Cell.O Cell.O
          Cell.Empty Cell.Empty Cell.Empty

/-- A reachable position in which X has forked (threats on column 0 and
on the anti-diagonal) and O, to move, is lost whatever it plays. -/
def forkBoard : Board :=
  boardOf Cell.X Cell.O Cell.Empty
          Cell.Empty Cell.X Cell.Empty
          Cell.X Cell.Empty Cell.O

/-- A drawn full board with the cell (2,0) blanked out: O to move can only
fill it, reaching a drawn full board. -/
def drawnOneEmptyBoard : Board :=
  boardOf Cell.X Cell.O Cell.X
          Cell.X Cell.O Cell.O
          Cell.Empty Cell.X Cell.X

/-- A full board with no winning line. -/
def fullDrawBoard : Board :=
  boardOf Cell.X Cell.O Cell.X
          Cell.X Cell.O Cell.O
          Cell.O Cell.X Cell.X

/-! ### Basic lemmas about cells, boards and scores -/

theorem setCell_self (b : Board) (r c : Fin 3) (v : Cell) : setCell b r c v r c = v := by
  simp [setCell]

theorem setCell_restore (b : Board) (r c : Fin 3) (v : Cell) (h : b r c = Cell.Empty) :
    setCell (setCell b r c v) r c Cell.Empty = b := by
  funext i j
  unfold setCell
  by_cases hij : i = r ∧ j = c
  · obtain ⟨h1, h2⟩ := hij
    subst h1
    subst h2
    simp [h]
  · simp [hij]

theorem Score.lt_negInf (a : Score) : Score.lt a Score.negInf = false := by
  cases a <;> rfl

theorem Score.negInf_lt_fin (n : Int) : Score.lt Score.negInf (Score.fin n) = true := rfl

theorem Score.posInf_lt (a : Score) : Score.lt Score.posInf a = false := by
  cases a <;> rfl

theorem Score.le_refl (a : Score) : Score.le a a = true := by
  cases a <;> simp [Score.le, Score.lt]

theorem Score.lt_imp_le {a b : Score} (h : Score.lt a b = true) : Score.le a b = true := by
  cases a <;> cases b <;> simp_all [Score.le, Score.lt] <;> omega

theorem Score.le_of_not_lt {a b : Score} (h : Score.lt a b = false) : Score.le b a = true := by
  simp [Score.le, h]

theorem Score.not_lt_of_le {a b : Score} (h : Score.le a b = true) : Score.lt b a = false := by
  simpa [Score.le] using h

theorem Score.le_trans {a b c : Score} (h1 : Score.le a b = true) (h2 : Score.le b c = true) :
    Score.le a c = true := by
  cases a <;> cases b <;> cases c <;> simp_all [Score.le, Score.lt] <;> omega

theorem Score.le_antisymm {a b : Score} (h1 : Score.le a b = true) (h2 : Score.le b a = true) :
    a = b := by
  cases a <;> cases b <;> simp_all [Score.le, Score.lt] <;> omega

theorem Score.lt_le_trans {a b c : Score} (h1 : Score.lt a b = true) (h2 : Score.le b c = true) :
    Score.lt a c = true := by
  cases a <;> cases b <;> cases c <;> simp_all [Score.le, Score.lt] <;> omega

theorem Score.le_lt_trans {a b c : Score} (h1 : Score.le a b = true) (h2 : Score.lt b c = true) :
    Score.lt a c = true := by
  cases a <;> cases b <;> cases c <;> simp_all [Score.le, Score.lt] <;> omega

theorem Score.max_choice (a b : Score) : Score.max a b = a ∨ Score.max a b = b := by
  unfold Score.max
  by_cases h : Score.lt a b = true <;> simp [h]

theorem Score.le_max_left (a b : Score) : Score.le a (Score.max a b) = true := by
  unfold Score.max
  by_cases h : Score.lt a b = true
  · simp [h, Score.lt_imp_le h]
  · simp [h, Score.le_refl]

theorem Score.le_max_right (a b : Score) : Score.le b (Score.max a b) = true := by
  unfold Score.max
  by_cases h : Score.lt a b = true
  · simp [h, Score.le_refl]
  · simp only [h, if_false]
    exact Score.le_of_not_lt (by simpa using h)

theorem Score.max_negInf (a : Score) : Score.max a Score.negInf = a := by
  simp [Score.max, Score.lt_negInf]

theorem Score.min_choice (a b : Score) : Score.min a b = a ∨ Score.min a b = b := by
  unfold Score.min
  by_cases h : Score.lt b a = true <;> simp [h]

theorem Score.min_le_left (a b : Score) : Score.le (Score.min a b) a = true := by
  unfold Score.min
  by_cases h : Score.lt b a = true
  · simp [h, Score.lt_imp_le h]
  · simp [h, Score.le_refl]

theorem Score.min_le_right (a b : Score) : Score.le (Score.min a b) b = true := by
  unfold Score.min
  by_cases h : Score.lt b a = true
  · simp [h, Score.le_refl]
  · simp only [h, if_false]
    exact Score.le_of_not_lt (by simpa using h)

theorem Score.min_posInf (a : Score) : Score.min a Score.posInf = a := by
  simp [Score.min, Score.posInf_lt]

/-! ### Lemmas about the empty-cell count -/

theorem mem_allCells (rc : Move) : rc ∈ allCells := by
  rcases rc with ⟨r, c⟩
  fin_cases r <;> fin_cases c <;> decide

theorem emptyCount_le_nine (b : Board) : emptyCount b ≤ 9 :=
  le_trans (Finset.card_filter_le _ _) (by simp)

theorem emptyCount_setCell_lt (b : Board) (r c : Fin 3) (v : Cell)
    (h : b r c = Cell.Empty) (hv : v ≠ Cell.Empty) :
    emptyCount (setCell b r c v) < emptyCount b := by
  unfold emptyCount
  apply Finset.card_lt_card
  constructor
  · intro rc hrc
    rw [Finset.mem_filter] at hrc ⊢
    refine ⟨Finset.mem_univ _, ?_⟩
    by_cases hij : rc.1 = r ∧ rc.2 = c
    · exact absurd (by simpa [setCell, hij] using hrc.2) hv
    · simpa [setCell, hij] using hrc.2
  · intro hsub
    have h1 : (r, c) ∈ Finset.univ.filter fun rc : Move => b rc.1 rc.2 = Cell.Empty := by
      rw [Finset.mem_filter]
      exact ⟨Finset.mem_univ _, h⟩
    have h2 := hsub h1
    rw [Finset.mem_filter] at h2
    exact hv (by simpa [setCell] using h2.2)

theorem hasEmpty_exists {b : Board} (h : hasEmpty b = true) :
    ∃ rc : Move, b rc.1 rc.2 = Cell.Empty := by
  obtain ⟨rc, _, hbeq⟩ := List.any_eq_true.mp h
  exact ⟨rc, beq_iff_eq.mp hbeq⟩

theorem hasEmpty_of_empty {b : Board} (rc : Move) (h : b rc.1 rc.2 = Cell.Empty) :
    hasEmpty b = true :=
  List.any_eq_true.mpr ⟨rc, mem_allCells rc, beq_iff_eq.mpr h⟩

theorem hasEmpty_pos {b : Board} (h : hasEmpty b = true) : 0 < emptyCount b := by
  obtain ⟨rc, hrc⟩ := hasEmpty_exists h
  exact Finset.card_pos.mpr ⟨rc, Finset.mem_filter.mpr ⟨Finset.mem_univ _, hrc⟩⟩

theorem hasEmpty_false_all {b : Board} (h : hasEmpty b = false) :
    ∀ rc : Move, ¬ b rc.1 rc.2 = Cell.Empty := by
  intro rc hrc
  rw [hasEmpty_of_empty rc hrc] at h
  cases h

/-! ### Fold helpers -/

theorem foldl_snd_const {σ : Type} (g : σ → Move → σ) (step : σ × Board → Move → σ × Board)
    (b : Board) (hstep : ∀ s rc, step (s, b) rc = (g s rc, b)) :
    ∀ (l : List Move) (s : σ), List.foldl step (s, b) l = (List.foldl g s l, b) := by
  intro l
  induction l with
  | nil => intro s; rfl
  | cons rc rest ih =>
    intro s
    rw [List.foldl_cons, List.foldl_cons, hstep]
    exact ih _

theorem foldl_congr_mem {σ α : Type} (l : List α) (f g : σ → α → σ)
    (h : ∀ s x, x ∈ l → f s x = g s x) : ∀ s, List.foldl f s l = List.foldl g s l := by
  induction l with
  | nil => intro s; rfl
  | cons x rest ih =>
    intro s
    rw [List.foldl_cons, List.foldl_cons, h s x (List.mem_cons_self x rest)]
    exact ih (fun s y hy => h s y (List.mem_cons_of_mem x hy)) _

/-! ### The pure value of the search, and purification of the state threading -/

/-- The score computed by `minimax`, as a pure recursion: because every
iteration of the source loop restores the cell it set (proved below,
`minimaxGo_eq_val`), each candidate is evaluated against the unchanged
entry board. -/
def minimaxVal : Nat → Board → Nat → Bool → Nat → Score
  | 0, _, _, _, _ => Score.fin 0
  | fuel + 1, b, depth, is_maximizing, difficulty =>
    if check_winning_condition b Cell.X then Score.fin (-1)
    else if check_winning_condition b Cell.O then Score.fin 1
    else if !(hasEmpty b) then Score.fin 0
    else if difficulty ≤ depth then Score.fin 0
    else if is_maximizing then
      allCells.foldl
        (fun best rc =>
          if b rc.1 rc.2 == Cell.Empty then
            Score.max (minimaxVal fuel (setCell b rc.1 rc.2 Cell.O) (depth + 1) false difficulty) best
          else best)
        Score.negInf
    else
      allCells.foldl
        (fun best rc =>
          if b rc.1 rc.2 == Cell.Empty then
            Score.min (minimaxVal fuel (setCell b rc.1 rc.2 Cell.X) (depth + 1) true difficulty) best
          else best)
        Score.posInf

/-- One root-selection step of `find_best_move`, in pure form. -/
def selStep (b : Board) (difficulty : Nat) (acc : Score × Option Move) (rc : Move) :
    Score × Option Move :=
  if b rc.1 rc.2 == Cell.Empty then
    if Score.lt acc.1 (minimaxVal 10 (setCell b rc.1 rc.2 Cell.O) 0 false difficulty) then
      (minimaxVal 10 (setCell b rc.1 rc.2 Cell.O) 0 false difficulty, some rc)
    else acc
  else acc

/-- The root selection of `find_best_move`, in pure form: the running
best score and best move over the row-major candidate scan. -/
def findBestMoveVal (b : Board) (difficulty : Nat) : Score × Option Move :=
  allCells.foldl (selStep b difficulty) (Score.negInf, none)

theorem minimaxGo_eq_val :
    ∀ (fuel : Nat) (b : Board) (depth : Nat) (m : Bool) (diff : Nat),
      minimaxGo fuel b depth m diff = (minimaxVal fuel b depth m diff, b) := by
  intro fuel
  induction fuel with
  | zero => intro b depth m diff; rfl
  | succ f ih =>
    intro b depth m diff
    simp only [minimaxGo, minimaxVal]
    split_ifs with h1 h2 h3 h4 h5
    · rfl
    · rfl
    · rfl
    · rfl
    · refine foldl_snd_const _ _ b (fun s rc => ?_) allCells Score.negInf
      by_cases hrc : b rc.1 rc.2 == Cell.Empty
      · simp only [hrc, if_true, ih,
          setCell_restore b rc.1 rc.2 Cell.O (beq_iff_eq.mp hrc)]
      · simp only [hrc, Bool.false_eq_true, if_false]
    · refine foldl_snd_const _ _ b (fun s rc => ?_) allCells Score.posInf
      by_cases hrc : b rc.1 rc.2 == Cell.Empty
      · simp only [hrc, if_true, ih,
          setCell_restore b rc.1 rc.2 Cell.X (beq_iff_eq.mp hrc)]
      · simp only [hrc, Bool.false_eq_true, if_false]

theorem minimax_eq_val (b : Board) (depth : Nat) (m : Bool) (diff : Nat) :
    minimax b depth m diff = (minimaxVal 10 b depth m diff, b) :=
  minimaxGo_eq_val 10 b depth m diff

theorem find_best_move_eq_val (b : Board) (diff : Nat) :
    find_best_move b diff = ((findBestMoveVal b diff).2, b) := by
  unfold find_best_move findBestMoveVal
  have h := foldl_snd_const (selStep b diff)
    (fun acc rc =>
      if acc.2 rc.1 rc.2 == Cell.Empty then
        let res := minimaxGo 10 (setCell acc.2 rc.1 rc.2 Cell.O) 0 false diff
        let b2 := setCell res.2 rc.1 rc.2 Cell.Empty
        if Score.lt acc.1.1 res.1 then ((res.1, some rc), b2) else (acc.1, b2)
      else acc)
    b
    (fun s rc => by
      by_cases hrc : b rc.1 rc.2 == Cell.Empty
      · simp only [hrc, if_true, minimaxGo_eq_val,
          setCell_restore b rc.1 rc.2 Cell.O (beq_iff_eq.mp hrc), selStep]
        by_cases hlt : Score.lt s.1 (minimaxVal 10 (setCell b rc.1 rc.2 Cell.O) 0 false diff) = true
        · simp [hlt]
        · simp [hlt]
      · simp only [selStep, hrc, Bool.false_eq_true, if_false])
    allCells (Score.negInf, none)
  rw [h]

/-! ### The three-valued range of the search -/

/-- The three leaf values of the evaluation. -/
def Score.isValue (s : Score) : Prop :=
  s = Score.fin (-1) ∨ s = Score.fin 0 ∨ s = Score.fin 1

theorem Score.lt_irrefl (a : Score) : Score.lt a a = false := by
  cases a <;> simp [Score.lt]

theorem Score.negInf_lt_isValue {s : Score} (h : Score.isValue s) :
    Score.lt Score.negInf s = true := by
  rcases h with h | h | h <;> rw [h] <;> rfl

theorem foldl_max_range (f : Move → Score) (p : Move → Bool)
    (hf : ∀ rc, p rc = true → Score.isValue (f rc)) :
    ∀ (l : List Move) (s0 : Score),
      ((∃ rc ∈ l, p rc = true) ∧ s0 = Score.negInf) ∨ Score.isValue s0 →
      Score.isValue
        (List.foldl (fun best rc => if p rc then Score.max (f rc) best else best) s0 l) := by
  intro l
  induction l with
  | nil =>
    intro s0 h
    rcases h with ⟨⟨rc, hmem, _⟩, _⟩ | h
    · exact absurd hmem (List.not_mem_nil rc)
    · simpa using h
  | cons rc rest ih =>
    intro s0 h
    rw [List.foldl_cons]
    by_cases hp : p rc = true
    · simp only [hp, if_true]
      apply ih
      right
      rcases h with ⟨_, hneg⟩ | hval
      · rw [hneg, Score.max_negInf]
        exact hf rc hp
      · rcases Score.max_choice (f rc) s0 with hc | hc
        · rw [hc]; exact hf rc hp
        · rw [hc]; exact hval
    · simp only [hp, if_false]
      apply ih
      rcases h with ⟨⟨rc', hmem, hp'⟩, hneg⟩ | hval
      · rcases List.mem_cons.mp hmem with heq | hmem'
        · exact absurd (heq ▸ hp') hp
        · exact Or.inl ⟨⟨rc', hmem', hp'⟩, hneg⟩
      · exact Or.inr hval

theorem foldl_min_range (f : Move → Score) (p : Move → Bool)
    (hf : ∀ rc, p rc = true → Score.isValue (f rc)) :
    ∀ (l : List Move) (s0 : Score),
      ((∃ rc ∈ l, p rc = true) ∧ s0 = Score.posInf) ∨ Score.isValue s0 →
      Score.isValue
        (List.foldl (fun best rc => if p rc then Score.min (f rc) best else best) s0 l) := by
  intro l
  induction l with
  | nil =>
    intro s0 h
    rcases h with ⟨⟨rc, hmem, _⟩, _⟩ | h
    · exact absurd hmem (List.not_mem_nil rc)
    · simpa using h
  | cons rc rest ih =>
    intro s0 h
    rw [List.foldl_cons]
    by_cases hp : p rc = true
    · simp only [hp, if_true]
      apply ih
      right
      rcases h with ⟨_, hpos⟩ | hval
      · rw [hpos, Score.min_posInf]
        exact hf rc hp
      · rcases Score.min_choice (f rc) s0 with hc | hc
        · rw [hc]; exact hf rc hp
        · rw [hc]; exact hval
    · simp only [hp, if_false]
      apply ih
      rcases h with ⟨⟨rc', hmem, hp'⟩, hpos⟩ | hval
      · rcases List.mem_cons.mp hmem with heq | hmem'
        · exact absurd (heq ▸ hp') hp
        · exact Or.inl ⟨⟨rc', hmem', hp'⟩, hpos⟩
      · exact Or.inr hval

theorem minimaxVal_isValue :
    ∀ (fuel : Nat) (b : Board) (depth : Nat) (m : Bool) (diff : Nat),
      Score.isValue (minimaxVal fuel b depth m diff) := by
  intro fuel
  induction fuel with
  | zero => intro b depth m diff; exact Or.inr (Or.inl rfl)
  | succ f ih =>
    intro b depth m diff
    simp only [minimaxVal]
    split_ifs with h1 h2 h3 h4 h5
    · exact Or.inl rfl
    · exact Or.inr (Or.inr rfl)
    · exact Or.inr (Or.inl rfl)
    · exact Or.inr (Or.inl rfl)
    · have hhe : hasEmpty b = true := by
        by_contra hfalse
        rw [Bool.not_eq_true] at hfalse
        exact h3 (by rw [hfalse]; rfl)
      apply foldl_max_range _ _ (fun rc _ => ih _ _ _ _) allCells Score.negInf
      exact Or.inl ⟨List.any_eq_true.mp hhe, rfl⟩
    · have hhe : hasEmpty b = true := by
        by_contra hfalse
        rw [Bool.not_eq_true] at hfalse
        exact h3 (by rw [hfalse]; rfl)
      apply foldl_min_range _ _ (fun rc _ => ih _ _ _ _) allCells Score.posInf
      exact Or.inl ⟨List.any_eq_true.mp hhe, rfl⟩

/-! ### Fuel and cutoff irrelevance -/

theorem minimaxVal_fuel_irrel :
    ∀ (fuel fuel' : Nat) (b : Board) (depth : Nat) (m : Bool) (diff : Nat),
      emptyCount b < fuel → emptyCount b < fuel' →
      minimaxVal fuel b depth m diff = minimaxVal fuel' b depth m diff := by
  intro fuel
  induction fuel with
  | zero => intro fuel' b depth m diff hf _; omega
  | succ f ih =>
    intro fuel' b depth m diff hf hf'
    cases fuel' with
    | zero => omega
    | succ f' =>
      simp only [minimaxVal]
      split_ifs with h1 h2 h3 h4 h5
      · rfl
      · rfl
      · rfl
      · rfl
      · refine foldl_congr_mem _ _ _ (fun s rc _ => ?_) _
        by_cases hrc : b rc.1 rc.2 == Cell.Empty
        · have hlt := emptyCount_setCell_lt b rc.1 rc.2 Cell.O (beq_iff_eq.mp hrc) (by simp)
          simp only [hrc, if_true, ih f' (setCell b rc.1 rc.2 Cell.O) (depth + 1) false diff
            (by omega) (by omega)]
        · simp only [hrc, Bool.false_eq_true, if_false]
      · refine foldl_congr_mem _ _ _ (fun s rc _ => ?_) _
        by_cases hrc : b rc.1 rc.2 == Cell.Empty
        · have hlt := emptyCount_setCell_lt b rc.1 rc.2 Cell.X (beq_iff_eq.mp hrc) (by simp)
          simp only [hrc, if_true, ih f' (setCell b rc.1 rc.2 Cell.X) (depth + 1) true diff
            (by omega) (by omega)]
        · simp only [hrc, Bool.false_eq_true, if_false]

theorem minimaxVal_cutoff_irrel :
    ∀ (fuel fuel' : Nat) (b : Board) (depth depth' : Nat) (m : Bool) (diff diff' : Nat),
      emptyCount b < fuel → emptyCount b < fuel' →
      depth + emptyCount b ≤ diff → depth' + emptyCount b ≤ diff' →
      minimaxVal fuel b depth m diff = minimaxVal fuel' b depth' m diff' := by
  intro fuel
  induction fuel with
  | zero => intro fuel' b depth depth' m diff diff' hf _ _ _; omega
  | succ f ih =>
    intro fuel' b depth depth' m diff diff' hf hf' hd hd'
    cases fuel' with
    | zero => omega
    | succ f' =>
      simp only [minimaxVal]
      by_cases h1 : check_winning_condition b Cell.X = true
      · simp [h1]
      · by_cases h2 : check_winning_condition b Cell.O = true
        · simp [h1, h2]
        · by_cases h3 : hasEmpty b = true
          · have he : 0 < emptyCount b := hasEmpty_pos h3
            simp only [h1, h2, h3, Bool.not_true, Bool.false_eq_true, if_false,
              if_neg (by omega : ¬ diff ≤ depth), if_neg (by omega : ¬ diff' ≤ depth')]
            cases m
            · simp only [Bool.false_eq_true, if_false]
              refine foldl_congr_mem _ _ _ (fun s rc _ => ?_) _
              by_cases hrc : b rc.1 rc.2 == Cell.Empty
              · have hlt := emptyCount_setCell_lt b rc.1 rc.2 Cell.X (beq_iff_eq.mp hrc) (by simp)
                simp only [hrc, if_true, ih f' (setCell b rc.1 rc.2 Cell.X) (depth + 1)
                  (depth' + 1) true diff diff' (by omega) (by omega) (by omega) (by omega)]
              · simp only [hrc, Bool.false_eq_true, if_false]
            · simp only [if_true]
              refine foldl_congr_mem _ _ _ (fun s rc _ => ?_) _
              by_cases hrc : b rc.1 rc.2 == Cell.Empty
              · have hlt := emptyCount_setCell_lt b rc.1 rc.2 Cell.O (beq_iff_eq.mp hrc) (by simp)
                simp only [hrc, if_true, ih f' (setCell b rc.1 rc.2 Cell.O) (depth + 1)
                  (depth' + 1) false diff diff' (by omega) (by omega) (by omega) (by omega)]
              · simp only [hrc, Bool.false_eq_true, if_false]
          · rw [Bool.not_eq_true] at h3
            simp [h1, h2, h3]

/-! ### Bounds on the maximizing fold -/

theorem foldl_max_init_le (f : Move → Score) (p : Move → Bool) :
    ∀ (l : List Move) (s0 : Score),
      Score.le s0
        (List.foldl (fun best rc => if p rc then Score.max (f rc) best else best) s0 l) = true := by
  intro l
  induction l with
  | nil => intro s0; exact Score.le_refl s0
  | cons rc rest ih =>
    intro s0
    rw [List.foldl_cons]
    by_cases hp : p rc = true
    · simp only [hp, if_true]
      exact Score.le_trans (Score.le_max_right (f rc) s0) (ih _)
    · simp only [hp, if_false]
      exact ih s0

theorem foldl_max_ge_mem (f : Move → Score) (p : Move → Bool) :
    ∀ (l : List Move) (s0 : Score) (rc : Move), rc ∈ l → p rc = true →
      Score.le (f rc)
        (List.foldl (fun best x => if p x then Score.max (f x) best else best) s0 l) = true := by
  intro l
  induction l with
  | nil => intro s0 rc hmem; exact absurd hmem (List.not_mem_nil rc)
  | cons x rest ih =>
    intro s0 rc hmem hp
    rw [List.foldl_cons]
    rcases List.mem_cons.mp hmem with heq | hmem'
    · subst heq
      simp only [hp, if_true]
      exact Score.le_trans (Score.le_max_left (f rc) s0) (foldl_max_init_le f p rest _)
    · by_cases hx : p x = true
      · simp only [hx, if_true]
        exact ih _ rc hmem' hp
      · simp only [hx, if_false]
        exact ih s0 rc hmem' hp

theorem foldl_max_cases (f : Move → Score) (p : Move → Bool) :
    ∀ (l : List Move) (s0 : Score),
      List.foldl (fun best rc => if p rc then Score.max (f rc) best else best) s0 l = s0 ∨
      ∃ rc, rc ∈ l ∧ p rc = true ∧
        List.foldl (fun best rc => if p rc then Score.max (f rc) best else best) s0 l = f rc := by
  intro l
  induction l with
  | nil => intro s0; exact Or.inl rfl
  | cons x rest ih =>
    intro s0
    rw [List.foldl_cons]
    by_cases hx : p x = true
    · simp only [hx, if_true]
      rcases ih (Score.max (f x) s0) with hcase | ⟨rc, hmem, hp, hval⟩
      · rcases Score.max_choice (f x) s0 with hc | hc
        · exact Or.inr ⟨x, List.mem_cons_self x rest, hx, by rw [hcase, hc]⟩
        · exact Or.inl (by rw [hcase, hc])
      · exact Or.inr ⟨rc, List.mem_cons_of_mem x hmem, hp, hval⟩
    · simp only [hx, if_false]
      rcases ih s0 with hcase | ⟨rc, hmem, hp, hval⟩
      · exact Or.inl hcase
      · exact Or.inr ⟨rc, List.mem_cons_of_mem x hmem, hp, hval⟩

/-! ### The root selection invariant -/

/-- The root score of a candidate cell: the evaluation of the board with
PLAYER_O written there, exactly as `find_best_move` computes it. -/
def scoreAt (b : Board) (diff : Nat) (rc : Move) : Score :=
  minimaxVal 10 (setCell b rc.1 rc.2 Cell.O) 0 false diff

/-- Row-major rank of a cell: the order in which the nested loops visit it. -/
def idxRM (rc : Move) : Nat := rc.1.val * 3 + rc.2.val

/-- Invariant of the root selection scan after the cells `done` have been
examined with accumulator `acc`: a `none` best move means no candidate was
seen, and a `some` best move is a candidate of maximal score, earliest in
row-major order among the tied ones. -/
def SelInv (b : Board) (diff : Nat) (done : List Move) (acc : Score × Option Move) : Prop :=
  (acc.2 = none → acc.1 = Score.negInf ∧ ∀ rc ∈ done, ¬ b rc.1 rc.2 = Cell.Empty) ∧
  ∀ m, acc.2 = some m →
    b m.1 m.2 = Cell.Empty ∧ acc.1 = scoreAt b diff m ∧ m ∈ done ∧
    (∀ rc ∈ done, b rc.1 rc.2 = Cell.Empty →
      Score.le (scoreAt b diff rc) (scoreAt b diff m) = true) ∧
    (∀ rc ∈ done, b rc.1 rc.2 = Cell.Empty → scoreAt b diff rc = scoreAt b diff m →
      idxRM m ≤ idxRM rc)

theorem selStep_inv (b : Board) (diff : Nat) (done : List Move) (acc : Score × Option Move)
    (rc : Move) (hinv : SelInv b diff done acc)
    (hcross : ∀ d ∈ done, idxRM d < idxRM rc) :
    SelInv b diff (done ++ [rc]) (selStep b diff acc rc) := by
  unfold selStep
  rw [show minimaxVal 10 (setCell b rc.1 rc.2 Cell.O) 0 false diff = scoreAt b diff rc from rfl]
  by_cases hrc : b rc.1 rc.2 == Cell.Empty
  · have hemp : b rc.1 rc.2 = Cell.Empty := beq_iff_eq.mp hrc
    simp only [hrc, if_true]
    by_cases hlt : Score.lt acc.1 (scoreAt b diff rc) = true
    · simp only [hlt, if_true]
      constructor
      · intro hnone; cases hnone
      · intro m hm
        have hm' : rc = m := by injection hm
        cases hm'
        refine ⟨hemp, rfl, by simp, ?_, ?_⟩
        · intro x hx hxe
          rcases List.mem_append.mp hx with hxd | hxr
          · cases hacc : acc.2 with
            | none =>
              exact absurd hxe ((hinv.1 hacc).2 x hxd)
            | some m0 =>
              obtain ⟨_, hs0, _, hbound, _⟩ := hinv.2 m0 hacc
              rw [hs0] at hlt
              exact Score.lt_imp_le (Score.le_lt_trans (hbound x hxd hxe) hlt)
          · have hx' : x = rc := by simpa using hxr
            subst hx'
            exact Score.le_refl _
        · intro x hx hxe hxs
          rcases List.mem_append.mp hx with hxd | hxr
          · cases hacc : acc.2 with
            | none =>
              exact absurd hxe ((hinv.1 hacc).2 x hxd)
            | some m0 =>
              obtain ⟨_, hs0, _, hbound, _⟩ := hinv.2 m0 hacc
              rw [hs0] at hlt
              have h1 : Score.lt (scoreAt b diff x) (scoreAt b diff rc) = true :=
                Score.le_lt_trans (hbound x hxd hxe) hlt
              rw [hxs] at h1
              rw [Score.lt_irrefl] at h1
              cases h1
          · have hx' : x = rc := by simpa using hxr
            subst hx'
            exact Nat.le_refl _
    · simp only [hlt, if_false]
      cases hacc : acc.2 with
      | none =>
        have hneg := (hinv.1 hacc).1
        rw [hneg] at hlt
        exact absurd (Score.negInf_lt_isValue (minimaxVal_isValue 10 _ 0 false diff)) hlt
      | some m0 =>
        obtain ⟨hm0e, hs0, hm0d, hbound, htie⟩ := hinv.2 m0 hacc
        refine ⟨?_, ?_⟩
        · intro hnone
          cases hacc.symm.trans hnone
        · intro m hm
          have hm' : m0 = m := by
            have h2 := hacc.symm.trans hm
            injection h2 with h3
          cases hm'
          refine ⟨hm0e, hs0, List.mem_append.mpr (Or.inl hm0d), ?_, ?_⟩
          · intro x hx hxe
            rcases List.mem_append.mp hx with hxd | hxr
            · exact hbound x hxd hxe
            · have hx' : x = rc := by simpa using hxr
              subst hx'
              have h4 := Score.le_of_not_lt (a := acc.1) (by simpa using hlt)
              rw [hs0] at h4
              exact h4
          · intro x hx hxe hxs
            rcases List.mem_append.mp hx with hxd | hxr
            · exact htie x hxd hxe hxs
            · have hx' : x = rc := by simpa using hxr
              subst hx'
              exact Nat.le_of_lt (hcross m0 hm0d)
  · have hne : ¬ b rc.1 rc.2 = Cell.Empty := by simpa using hrc
    simp only [hrc, Bool.false_eq_true, if_false]
    constructor
    · intro hnone
      refine ⟨(hinv.1 hnone).1, ?_⟩
      intro x hx
      rcases List.mem_append.mp hx with hxd | hxr
      · exact (hinv.1 hnone).2 x hxd
      · have : x = rc := by simpa using hxr
        subst this
        exact hne
    · intro m hm
      obtain ⟨hme, hs, hmd, hbound, htie⟩ := hinv.2 m hm
      refine ⟨hme, hs, List.mem_append.mpr (Or.inl hmd), ?_, ?_⟩
      · intro x hx hxe
        rcases List.mem_append.mp hx with hxd | hxr
        · exact hbound x hxd hxe
        · have : x = rc := by simpa using hxr
          subst this
          exact absurd hxe hne
      · intro x hx hxe hxs
        rcases List.mem_append.mp hx with hxd | hxr
        · exact htie x hxd hxe hxs
        · have : x = rc := by simpa using hxr
          subst this
          exact absurd hxe hne

theorem selFold_inv (b : Board) (diff : Nat) :
    ∀ (rest done : List Move) (acc : Score × Option Move),
      (∀ d ∈ done, ∀ r ∈ rest, idxRM d < idxRM r) →
      List.Pairwise (fun a c => idxRM a < idxRM c) rest →
      SelInv b diff done acc →
      SelInv b diff (done ++ rest) (List.foldl (selStep b diff) acc rest) := by
  intro rest
  induction rest with
  | nil => intro done acc _ _ hinv; simpa using hinv
  | cons rc rest' ih =>
    intro done acc hcross hpw hinv
    rw [List.foldl_cons]
    obtain ⟨hrc_all, hpw'⟩ := List.pairwise_cons.mp hpw
    have hstep := selStep_inv b diff done acc rc hinv
      (fun d hd => hcross d hd rc (List.mem_cons_self rc rest'))
    have hcross' : ∀ d ∈ done ++ [rc], ∀ r ∈ rest', idxRM d < idxRM r := by
      intro d hd r hr
      rcases List.mem_append.mp hd with hdd | hdr
      · exact hcross d hdd r (List.mem_cons_of_mem rc hr)
      · have : d = rc := by simpa using hdr
        subst this
        exact hrc_all r hr
    have := ih (done ++ [rc]) (selStep b diff acc rc) hcross' hpw' hstep
    simpa [List.append_assoc] using this

theorem findBestMoveVal_inv (b : Board) (diff : Nat) :
    SelInv b diff allCells (findBestMoveVal b diff) := by
  have h := selFold_inv b diff allCells [] (Score.negInf, none)
    (by intro d hd; exact absurd hd (List.not_mem_nil d))
    (by decide)
    ⟨fun _ => ⟨rfl, by intro rc hrc; exact absurd hrc (List.not_mem_nil rc)⟩,
     fun m hm => by cases hm⟩
  simpa [findBestMoveVal] using h

theorem foldl_const {σ α : Type} (f : σ → α → σ) :
    ∀ (l : List α) (s : σ), (∀ s x, x ∈ l → f s x = s) → List.foldl f s l = s := by
  intro l
  induction l with
  | nil => intro s _; rfl
  | cons x rest ih =>
    intro s h
    rw [List.foldl_cons, h s x (List.mem_cons_self x rest)]
    exact ih s (fun s y hy => h s y (List.mem_cons_of_mem x hy))

/-- Unfolding of the pure evaluation at one remaining fuel step. -/
theorem minimaxVal_succ (fuel : Nat) (b : Board) (depth : Nat) (m : Bool) (diff : Nat) :
    minimaxVal (fuel + 1) b depth m diff =
      (if check_winning_condition b Cell.X then Score.fin (-1)
      else if check_winning_condition b Cell.O then Score.fin 1
      else if !(hasEmpty b) then Score.fin 0
      else if diff ≤ depth then Score.fin 0
      else if m then
        allCells.foldl
          (fun best rc =>
            if b rc.1 rc.2 == Cell.Empty then
              Score.max (minimaxVal fuel (setCell b rc.1 rc.2 Cell.O) (depth + 1) false diff) best
            else best)
          Score.negInf
      else
        allCells.foldl
          (fun best rc =>
            if b rc.1 rc.2 == Cell.Empty then
              Score.min (minimaxVal fuel (setCell b rc.1 rc.2 Cell.X) (depth + 1) true diff) best
            else best)
          Score.posInf) := rfl

/-- The number of leaf positions the search of `minimax` evaluates: it
follows the same guards and the same recursion over candidate cells, and
counts 1 at every terminal or cutoff position. -/
def searchLeaves : Nat → Board → Nat → Bool → Nat → Nat
  | 0, _, _, _, _ => 1
  | fuel + 1, b, depth, is_maximizing, difficulty =>
    if check_winning_condition b Cell.X then 1
    else if check_winning_condition b Cell.O then 1
    else if !(hasEmpty b) then 1
    else if difficulty ≤ depth then 1
    else
      allCells.foldl
        (fun n rc =>
          if b rc.1 rc.2 == Cell.Empty then
            n + searchLeaves fuel
              (setCell b rc.1 rc.2 (if is_maximizing then Cell.O else Cell.X))
              (depth + 1) (!is_maximizing) difficulty
          else n)
        0

theorem length_filter_eq_emptyCount (b : Board) :
    (allCells.filter fun rc => b rc.1 rc.2 == Cell.Empty).length = emptyCount b := by
  have hnd : (allCells.filter fun rc => b rc.1 rc.2 == Cell.Empty).Nodup :=
    List.Nodup.filter _ (by decide)
  rw [← List.toFinset_card_of_nodup hnd]
  unfold emptyCount
  congr 1
  ext rc
  simp [List.mem_toFinset, List.mem_filter, mem_allCells rc, Finset.mem_filter]

theorem foldl_add_le (f : Move → Nat) (p : Move → Bool) (B : Nat)
    (hf : ∀ rc, p rc = true → f rc ≤ B) :
    ∀ (l : List Move) (n : Nat),
      List.foldl (fun n rc => if p rc then n + f rc else n) n l ≤
        n + (l.filter p).length * B := by
  intro l
  induction l with
  | nil => intro n; simp
  | cons x rest ih =>
    intro n
    rw [List.foldl_cons]
    by_cases hp : p x = true
    · simp only [hp, if_true]
      refine le_trans (ih (n + f x)) ?_
      have h1 : (List.filter p (x :: rest)).length = (List.filter p rest).length + 1 := by
        simp [List.filter_cons, hp]
      rw [h1]
      have h2 : f x ≤ B := hf x hp
      have h3 : (List.filter p rest).length * B + B ≤ ((List.filter p rest).length + 1) * B := by
        rw [Nat.add_mul, Nat.one_mul]
      omega
    · simp only [hp, if_false]
      refine le_trans (ih n) ?_
      have h1 : (List.filter p (x :: rest)).length = (List.filter p rest).length := by
        simp [List.filter_cons, hp]
      rw [h1]

theorem searchLeaves_le_factorial :
    ∀ (fuel : Nat) (b : Board) (depth : Nat) (m : Bool) (diff : Nat),
      searchLeaves fuel b depth m diff ≤ Nat.factorial (emptyCount b) := by
  intro fuel
  induction fuel with
  | zero => intro b depth m diff; exact Nat.factorial_pos _
  | succ f ih =>
    intro b depth m diff
    simp only [searchLeaves]
    have hgen : ∀ mark : Cell, ¬ mark = Cell.Empty → hasEmpty b = true →
        List.foldl
          (fun n rc =>
            if b rc.1 rc.2 == Cell.Empty then
              n + searchLeaves f (setCell b rc.1 rc.2 mark) (depth + 1) (!m) diff
            else n)
          0 allCells ≤ Nat.factorial (emptyCount b) := by
      intro mark hmark he
      have hepos : 0 < emptyCount b := hasEmpty_pos he
      obtain ⟨k, hk⟩ := Nat.exists_eq_succ_of_ne_zero (Nat.pos_iff_ne_zero.mp hepos)
      have hbound := foldl_add_le
        (fun rc => searchLeaves f (setCell b rc.1 rc.2 mark) (depth + 1) (!m) diff)
        (fun rc => b rc.1 rc.2 == Cell.Empty)
        (Nat.factorial k)
        (fun rc hrc => by
          have hdec := emptyCount_setCell_lt b rc.1 rc.2 mark (beq_iff_eq.mp hrc) hmark
          exact le_trans (ih _ _ _ _) (Nat.factorial_le (by omega)))
        allCells 0
      refine le_trans hbound ?_
      rw [Nat.zero_add, length_filter_eq_emptyCount, hk, ← Nat.factorial_succ]
    split_ifs with h1 h2 h3 h4 h5
    · exact Nat.factorial_pos _
    · exact Nat.factorial_pos _
    · exact Nat.factorial_pos _
    · exact Nat.factorial_pos _
    · exact hgen Cell.O (by simp) (by
        by_contra hf2
        rw [Bool.not_eq_true] at hf2
        exact h3 (by rw [hf2]; rfl))
    · exact hgen Cell.X (by simp) (by
        by_contra hf2
        rw [Bool.not_eq_true] at hf2
        exact h3 (by rw [hf2]; rfl))

/-! ### The claims -/

/-- C2: `find_best_move` has zero net effect on the board: the post-call
board is identical to the pre-call board for every input board and every
difficulty, and the same holds for every `minimax` call. -/
theorem find_best_move_no_net_mutation (b : Board) (difficulty : Nat) :
    (find_best_move b difficulty).2 = b ∧
    ∀ (depth : Nat) (m : Bool), (minimax b depth m difficulty).2 = b := by
  constructor
  · rw [find_best_move_eq_val]
  · intro depth m
    rw [minimax_eq_val]

/-- C3 counterexample: `xTopRowBoard` is terminal (X has completed the top
row), yet `find_best_move` does not return `none`: it returns the first
empty cell (1,0). -/
theorem find_best_move_some_on_won_board :
    check_winning_condition xTopRowBoard Cell.X = true ∧
    (find_best_move xTopRowBoard 9).1 = some (1, 0) ∧
    ¬ (find_best_move xTopRowBoard 9).1 = none := by
  refine ⟨by decide, by decide, by decide⟩

/-- C3 (amended): only on a full board does `find_best_move` return
`none`; it does so without error and without mutating the board.  A board
that is terminal through a completed win line but still has an Empty cell
instead yields a move (see the counterexample). -/
theorem find_best_move_none_on_full (b : Board) (difficulty : Nat)
    (h : hasEmpty b = false) :
    find_best_move b difficulty = (none, b) := by
  rw [find_best_move_eq_val]
  have hval : findBestMoveVal b difficulty = (Score.negInf, none) := by
    unfold findBestMoveVal
    apply foldl_const
    intro acc rc _
    unfold selStep
    have hne : (b rc.1 rc.2 == Cell.Empty) = false := by
      have := hasEmpty_false_all h rc
      simpa using this
    simp [hne]
  rw [hval]

/-- Witness for C3 at a concrete full drawn board. -/
theorem find_best_move_none_on_full_witness :
    find_best_move fullDrawBoard 9 = (none, fullDrawBoard) :=
  find_best_move_none_on_full fullDrawBoard 9 (by decide)

/-- C5: on a non-terminal board (no completed win line, at least one
Empty cell), once the depth has reached the difficulty `minimax` cuts the
recursion off and returns score 0, leaving the board unchanged. -/
theorem minimax_depth_cutoff (b : Board) (depth difficulty : Nat) (m : Bool)
    (hx : check_winning_condition b Cell.X = false)
    (ho : check_winning_condition b Cell.O = false)
    (he : hasEmpty b = true)
    (hd : difficulty ≤ depth) :
    minimax b depth m difficulty = (Score.fin 0, b) := by
  show minimaxGo (9 + 1) b depth m difficulty = (Score.fin 0, b)
  simp only [minimaxGo]
  simp [hx, ho, he, hd]

/-- Witness for C5 at the empty board, depth 0, difficulty 0. -/
theorem minimax_depth_cutoff_witness :
    minimax emptyBoard 0 true 0 = (Score.fin 0, emptyBoard) :=
  minimax_depth_cutoff emptyBoard 0 0 true (by decide) (by decide) (by decide) (by decide)

/-- C6 counterexample: on a board where both sides have completed lines,
O has a win line but `minimax` returns −1, not +1, because the X check
comes first. -/
theorem minimax_not_plus_one_on_double_win :
    check_winning_condition doubleWinBoard Cell.O = true ∧
    (minimax doubleWinBoard 0 true 9).1 = Score.fin (-1) ∧
    ¬ (minimax doubleWinBoard 0 true 9).1 = Score.fin 1 := by
  refine ⟨by decide, by decide, by decide⟩

/-- C6 (amended): `minimax` only ever returns −1, 0 or +1 — never ±∞ —
with −1 whenever X has a completed line (X is checked first, so a board
where both sides have lines also scores −1), +1 when O has a line and X
does not, and 0 on a full board with no line or at the depth cutoff. -/
theorem minimax_three_valued (b : Board) (depth : Nat) (m : Bool) (difficulty : Nat) :
    Score.isValue (minimax b depth m difficulty).1 ∧
    (check_winning_condition b Cell.X = true →
      (minimax b depth m difficulty).1 = Score.fin (-1)) ∧
    (check_winning_condition b Cell.X = false → check_winning_condition b Cell.O = true →
      (minimax b depth m difficulty).1 = Score.fin 1) ∧
    (check_winning_condition b Cell.X = false → check_winning_condition b Cell.O = false →
      hasEmpty b = false → (minimax b depth m difficulty).1 = Score.fin 0) ∧
    (check_winning_condition b Cell.X = false → check_winning_condition b Cell.O = false →
      hasEmpty b = true → difficulty ≤ depth →
      (minimax b depth m difficulty).1 = Score.fin 0) := by
  refine ⟨?_, ?_, ?_, ?_, ?_⟩
  · rw [minimax_eq_val]
    exact minimaxVal_isValue 10 b depth m difficulty
  · intro hx
    show (minimaxGo (9 + 1) b depth m difficulty).1 = Score.fin (-1)
    simp only [minimaxGo]
    simp [hx]
  · intro hx ho
    show (minimaxGo (9 + 1) b depth m difficulty).1 = Score.fin 1
    simp only [minimaxGo]
    simp [hx, ho]
  · intro hx ho he
    show (minimaxGo (9 + 1) b depth m difficulty).1 = Score.fin 0
    simp only [minimaxGo]
    simp [hx, ho, he]
  · intro hx ho he hd
    show (minimaxGo (9 + 1) b depth m difficulty).1 = Score.fin 0
    simp only [minimaxGo]
    simp [hx, ho, he, hd]

/-- Witness for C6 on a board where X has completed the top row. -/
theorem minimax_three_valued_witness :
    (minimax xTopRowBoard 0 true 9).1 = Score.fin (-1) :=
  (minimax_three_valued xTopRowBoard 0 true 9).2.1 (by decide)

/-- C7: a move addressing an occupied cell is rejected with the board left
completely unchanged: the spec-modelled `place` fails with
`InvalidMoveError`, and the guard of the source's `player_turn` performs
no write at all. -/
theorem place_occupied_fails (b : Board) (r c : Fin 3) (p : Cell) (difficulty : Nat)
    (h : ¬ b r c = Cell.Empty) :
    place b r.val c.val p = Except.error InvalidMoveError.invalidMove ∧
    player_turn b r c difficulty = b := by
  constructor
  · unfold place
    rw [dif_pos (show r.val < 3 ∧ c.val < 3 from ⟨r.isLt, c.isLt⟩)]
    simp only [Fin.eta]
    rw [if_neg h]
  · unfold player_turn
    rw [if_neg]
    intro hcon
    exact h hcon.1

/-- Witness for C7 at an occupied corner of a concrete board. -/
theorem place_occupied_fails_witness :
    place xTopRowBoard 0 0 Cell.O = Except.error InvalidMoveError.invalidMove ∧
    player_turn xTopRowBoard 0 0 9 = xTopRowBoard :=
  place_occupied_fails xTopRowBoard 0 0 Cell.O 9 (by decide)

/-- C8: `find_best_move` yields a move exactly when the board has an Empty
cell: the returned option is `some` iff `hasEmpty` holds. -/
theorem find_best_move_isSome_iff (b : Board) (difficulty : Nat) :
    ((find_best_move b difficulty).1).isSome = hasEmpty b := by
  rw [find_best_move_eq_val]
  show ((findBestMoveVal b difficulty).2).isSome = hasEmpty b
  have hinv := findBestMoveVal_inv b difficulty
  cases hres : (findBestMoveVal b difficulty).2 with
  | none =>
    cases hhe : hasEmpty b with
    | false => rfl
    | true =>
      obtain ⟨rc, hrc⟩ := hasEmpty_exists hhe
      exact absurd hrc ((hinv.1 hres).2 rc (mem_allCells rc))
  | some m =>
    obtain ⟨hme, _, _, _, _⟩ := hinv.2 m hres
    rw [hasEmpty_of_empty m hme]
    rfl

/-- C9: the search terminates: a board has at most 9 Empty cells, every
speculative placement strictly decreases that count, any fuel beyond it
is irrelevant to `minimaxGo` (so the recursion driven by `minimax` with
fuel 10 is the full, finite search), and the number of leaf positions the
search evaluates is at most 9!. -/
theorem minimax_terminates (b : Board) :
    emptyCount b ≤ 9 ∧
    (∀ (r c : Fin 3) (v : Cell), b r c = Cell.Empty → ¬ v = Cell.Empty →
      emptyCount (setCell b r c v) < emptyCount b) ∧
    (∀ (fuel fuel' depth : Nat) (m : Bool) (difficulty : Nat),
      emptyCount b < fuel → emptyCount b < fuel' →
      minimaxGo fuel b depth m difficulty = minimaxGo fuel' b depth m difficulty) ∧
    ∀ (fuel depth : Nat) (m : Bool) (difficulty : Nat),
      searchLeaves fuel b depth m difficulty ≤ Nat.factorial 9 := by
  refine ⟨emptyCount_le_nine b, ?_, ?_, ?_⟩
  · intro r c v h hv
    exact emptyCount_setCell_lt b r c v h hv
  · intro fuel fuel' depth m difficulty hf hf'
    rw [minimaxGo_eq_val, minimaxGo_eq_val,
      minimaxVal_fuel_irrel fuel fuel' b depth m difficulty hf hf']
  · intro fuel depth m difficulty
    exact le_trans (searchLeaves_le_factorial fuel b depth m difficulty)
      (Nat.factorial_le (emptyCount_le_nine b))

/-- Witness for C9 at the empty board. -/
theorem minimax_terminates_witness :
    emptyCount emptyBoard ≤ 9 ∧
    emptyCount (setCell emptyBoard 0 0 Cell.O) < emptyCount emptyBoard ∧
    minimaxGo 10 emptyBoard 0 true 0 = minimaxGo 11 emptyBoard 0 true 0 ∧
    searchLeaves 10 emptyBoard 0 true 0 ≤ Nat.factorial 9 :=
  ⟨(minimax_terminates emptyBoard).1,
   (minimax_terminates emptyBoard).2.1 0 0 Cell.O (by decide) (by decide),
   (minimax_terminates emptyBoard).2.2.1 10 11 0 true 0 (by decide) (by decide),
   (minimax_terminates emptyBoard).2.2.2 10 0 true 0⟩

/-- C10: a move returned by `find_best_move` has both coordinates within
bounds and addresses an Empty cell of the input board, so the
spec-modelled `place` accepts it. -/
theorem find_best_move_returns_legal (b : Board) (difficulty : Nat) (m : Move)
    (h : (find_best_move b difficulty).1 = some m) :
    m.1.val ≤ 2 ∧ m.2.val ≤ 2 ∧ b m.1 m.2 = Cell.Empty ∧
    place b m.1.val m.2.val Cell.O = Except.ok (setCell b m.1 m.2 Cell.O) := by
  have hmv : (findBestMoveVal b difficulty).2 = some m := by
    rw [find_best_move_eq_val] at h
    exact h
  obtain ⟨hme, _, _, _, _⟩ := (findBestMoveVal_inv b difficulty).2 m hmv
  refine ⟨Nat.le_of_lt_succ m.1.isLt, Nat.le_of_lt_succ m.2.isLt, hme, ?_⟩
  unfold place
  rw [dif_pos (show m.1.val < 3 ∧ m.2.val < 3 from ⟨m.1.isLt, m.2.isLt⟩)]
  simp only [Fin.eta]
  rw [if_pos hme]

/-- Witness for C10 at a board with a single Empty cell. -/
theorem find_best_move_returns_legal_witness :
    (find_best_move drawnOneEmptyBoard 9).1 = some (2, 0) ∧
    drawnOneEmptyBoard 2 0 = Cell.Empty ∧
    place drawnOneEmptyBoard 2 0 Cell.O =
      Except.ok (setCell drawnOneEmptyBoard 2 0 Cell.O) := by
  have h := find_best_move_returns_legal drawnOneEmptyBoard 9 (2, 0) (by decide)
  exact ⟨by decide, h.2.2.1, h.2.2.2⟩

/-- C4: the returned move is a maximal-score candidate and, among equally
scoring candidates, the earliest in row-major order: the running best is
only replaced on a strictly greater score. -/
theorem find_best_move_tie_break (b : Board) (difficulty : Nat) (m : Move)
    (h : (find_best_move b difficulty).1 = some m) :
    b m.1 m.2 = Cell.Empty ∧
    (∀ rc : Move, b rc.1 rc.2 = Cell.Empty →
      Score.le ((minimax (setCell b rc.1 rc.2 Cell.O) 0 false difficulty).1)
        ((minimax (setCell b m.1 m.2 Cell.O) 0 false difficulty).1) = true) ∧
    (∀ rc : Move, b rc.1 rc.2 = Cell.Empty →
      (minimax (setCell b rc.1 rc.2 Cell.O) 0 false difficulty).1 =
        (minimax (setCell b m.1 m.2 Cell.O) 0 false difficulty).1 →
      m.1.val * 3 + m.2.val ≤ rc.1.val * 3 + rc.2.val) := by
  have hmv : (findBestMoveVal b difficulty).2 = some m := by
    rw [find_best_move_eq_val] at h
    exact h
  obtain ⟨hme, _, _, hbound, htie⟩ := (findBestMoveVal_inv b difficulty).2 m hmv
  have hsc : ∀ rc : Move,
      (minimax (setCell b rc.1 rc.2 Cell.O) 0 false difficulty).1 = scoreAt b difficulty rc := by
    intro rc
    rw [minimax_eq_val]
    rfl
  refine ⟨hme, ?_, ?_⟩
  · intro rc hrc
    rw [hsc rc, hsc m]
    exact hbound rc (mem_allCells rc) hrc
  · intro rc hrc heq
    rw [hsc rc, hsc m] at heq
    exact htie rc (mem_allCells rc) hrc heq

/-- Witness for C4 at a board with a single Empty cell. -/
theorem find_best_move_tie_break_witness :
    (find_best_move drawnOneEmptyBoard 9).1 = some (2, 0) ∧
    drawnOneEmptyBoard 2 0 = Cell.Empty := by
  have h := find_best_move_tie_break drawnOneEmptyBoard 9 (2, 0) (by decide)
  exact ⟨by decide, h.1⟩

/-- The fork position is reached by legal play: X(0,0), O(0,1), X(1,1),
O(2,2), X(2,0), leaving O to move. -/
theorem forkBoard_reachable : Reachable forkBoard false := by
  have h1 : Reachable (setCell emptyBoard 0 0 Cell.X) false :=
    Reachable.moveX emptyBoard 0 0 Reachable.init (by decide) (by decide)
  have h2 : Reachable (setCell (setCell emptyBoard 0 0 Cell.X) 0 1 Cell.O) true :=
    Reachable.moveO _ 0 1 h1 (by decide) (by decide)
  have h3 : Reachable (setCell (setCell (setCell emptyBoard 0 0 Cell.X) 0 1 Cell.O)
      1 1 Cell.X) false :=
    Reachable.moveX _ 1 1 h2 (by decide) (by decide)
  have h4 : Reachable (setCell (setCell (setCell (setCell emptyBoard 0 0 Cell.X) 0 1 Cell.O)
      1 1 Cell.X) 2 2 Cell.O) true :=
    Reachable.moveO _ 2 2 h3 (by decide) (by decide)
  have h5 : Reachable (setCell (setCell (setCell (setCell (setCell emptyBoard 0 0 Cell.X)
      0 1 Cell.O) 1 1 Cell.X) 2 2 Cell.O) 2 0 Cell.X) false :=
    Reachable.moveX _ 2 0 h4 (by decide) (by decide)
  have heq : setCell (setCell (setCell (setCell (setCell emptyBoard 0 0 Cell.X)
      0 1 Cell.O) 1 1 Cell.X) 2 2 Cell.O) 2 0 Cell.X = forkBoard := by
    funext i j
    fin_cases i <;> fin_cases j <;> rfl
  rw [heq] at h5
  exact h5

/-- C1 counterexample: `forkBoard` is a reachable, non-terminal position
(O to move) at full depth (difficulty 9), yet the move `find_best_move`
returns leads to a position whose own full-depth evaluation is −1: with
optimal opposing play the engine loses from here, whatever it plays. -/
theorem find_best_move_loses_from_fork :
    Reachable forkBoard false ∧
    check_winner forkBoard = false ∧
    (find_best_move forkBoard 9).1 = some (0, 2) ∧
    (minimax (setCell forkBoard 0 2 Cell.O) 0 false 9).1 = Score.fin (-1) ∧
    Score.le (Score.fin 0) ((minimax (setCell forkBoard 0 2 Cell.O) 0 false 9).1) = false := by
  refine ⟨forkBoard_reachable, by decide, by decide, by decide, by decide⟩

/-- C1 (amended): at difficulty ≥ 9 (full-depth search), from every
non-terminal position with the engine (O, the maximizer) to move in which
the engine is not already lost — its own evaluation of the position is
≥ 0 — the move returned by `find_best_move` leads to a position whose
evaluation is still ≥ 0: with optimal or near-optimal opposing play the
game ends in an engine win or a draw.  (At a reachable position where the
engine is already lost — evaluation < 0, as in the counterexample — no
move avoids the loss.) -/
theorem find_best_move_preserves_nonloss (b : Board) (difficulty : Nat)
    (hdiff : 9 ≤ difficulty)
    (hx : check_winning_condition b Cell.X = false)
    (ho : check_winning_condition b Cell.O = false)
    (he : hasEmpty b = true)
    (hval : Score.le (Score.fin 0) ((minimax b 0 true difficulty).1) = true) :
    ∃ m : Move, (find_best_move b difficulty).1 = some m ∧
      Score.le (Score.fin 0)
        ((minimax (setCell b m.1 m.2 Cell.O) 0 false difficulty).1) = true := by
  have hroot : (minimax b 0 true difficulty).1 =
      List.foldl
        (fun best rc =>
          if b rc.1 rc.2 == Cell.Empty then Score.max (scoreAt b difficulty rc) best else best)
        Score.negInf allCells := by
    rw [minimax_eq_val]
    show minimaxVal (9 + 1) b 0 true difficulty = _
    rw [minimaxVal_succ]
    have hx' : ¬ check_winning_condition b Cell.X = true := by
      rw [hx]; exact Bool.false_ne_true
    have ho' : ¬ check_winning_condition b Cell.O = true := by
      rw [ho]; exact Bool.false_ne_true
    have he' : ¬ (!(hasEmpty b)) = true := by
      rw [he]; exact Bool.false_ne_true
    rw [if_neg hx', if_neg ho', if_neg he',
      if_neg (show ¬ difficulty ≤ 0 by omega), if_pos rfl]
    refine foldl_congr_mem _ _ _ (fun s rc _ => ?_) _
    by_cases hrc : b rc.1 rc.2 == Cell.Empty
    · have hemp := beq_iff_eq.mp hrc
      have hlt := emptyCount_setCell_lt b rc.1 rc.2 Cell.O hemp (by simp)
      have h9 := emptyCount_le_nine b
      rw [show minimaxVal 9 (setCell b rc.1 rc.2 Cell.O) (0 + 1) false difficulty =
          scoreAt b difficulty rc from
        minimaxVal_cutoff_irrel 9 10 (setCell b rc.1 rc.2 Cell.O) (0 + 1) 0 false
          difficulty difficulty (by omega) (by omega) (by omega) (by omega)]
    · simp only [hrc, Bool.false_eq_true, if_false]
  have hinv := findBestMoveVal_inv b difficulty
  cases hres : (findBestMoveVal b difficulty).2 with
  | none =>
    obtain ⟨rc, hrc⟩ := hasEmpty_exists he
    exact absurd hrc ((hinv.1 hres).2 rc (mem_allCells rc))
  | some m =>
    obtain ⟨hme, _, _, hbound, _⟩ := hinv.2 m hres
    have hret : (find_best_move b difficulty).1 = some m := by
      rw [find_best_move_eq_val]
      exact hres
    refine ⟨m, hret, ?_⟩
    have hscm : (minimax (setCell b m.1 m.2 Cell.O) 0 false difficulty).1 =
        scoreAt b difficulty m := by
      rw [minimax_eq_val]
      rfl
    rw [hscm]
    rcases foldl_max_cases (scoreAt b difficulty)
        (fun rc => b rc.1 rc.2 == Cell.Empty) allCells Score.negInf with hneg | hwit
    · rw [← hroot] at hneg
      rw [hneg] at hval
      exact absurd hval (by decide)
    · obtain ⟨c0, hc0mem, hc0p, hc0val⟩ := hwit
      rw [← hroot] at hc0val
      have hle : Score.le ((minimax b 0 true difficulty).1) (scoreAt b difficulty m) = true := by
        rw [hc0val]
        exact hbound c0 hc0mem (beq_iff_eq.mp hc0p)
      exact Score.le_trans hval hle

/-- Witness for C1 at a board with a single Empty cell whose only
continuation is a draw. -/
theorem find_best_move_preserves_nonloss_witness :
    ∃ m : Move, (find_best_move drawnOneEmptyBoard 9).1 = some m ∧
      Score.le (Score.fin 0)
        ((minimax (setCell drawnOneEmptyBoard m.1 m.2 Cell.O) 0 false 9).1) = true :=
  find_best_move_preserves_nonloss drawnOneEmptyBoard 9 (by decide) (by decide) (by decide)
    (by decide) (by decide)
